import Mathlib

/-!
Shallow embedding of `src/contracts/manage_hub/src/membership_token.rs`
(the ManageHub membership-token Soroban contract) and proofs about it.

Modelling conventions:
* 32-byte token ids (`BytesN<32>`) and Soroban `Address`es are abstracted to
  `Nat`; only equality of ids/addresses matters to the contract code.
* Soroban persistent storage is modelled as explicit functions inside a
  state record `St` (tokens, metadata, history, index) plus the instance
  `Admin` slot; `env.storage().set` becomes a pointwise function update.
* `require_auth` (which traps the transaction in Soroban) is modelled by an
  `auth : Address → Bool` environment: a principal `p` with `auth p = false`
  makes the operation return the dedicated `Error.AuthAbort` outcome with no
  state change.  Every operation also reports the list of principals from
  which it requested authorization, so authorization behaviour is provable.
* `env.ledger().timestamp()` and `env.ledger().sequence()` are passed in as
  explicit `now`/`seq` arguments.
* Events (`env.events().publish`) carry no storage semantics and are omitted.
-/

namespace ManageHub

/-- Token identifiers (`BytesN<32>` in the source), abstracted to `Nat`. -/
abbrev TokenId := Nat

/-- Soroban `Address`, abstracted to `Nat`. -/
abbrev Address := Nat

/-- Modelled from the spec: `crate::types::MembershipStatus` is not under
`src/`; the spec (section 3) gives the closed status set
`Active | Expired | Revoked`. -/
inductive MembershipStatus where
  | Active
  | Expired
  | Revoked
deriving DecidableEq, Repr

/-- Modelled from the spec: `common_types::MetadataValue` is not under
`src/`; the spec (section 3) describes a tagged union over a closed set of
scalar kinds (text, integer, boolean) with structural equality. -/
inductive MetadataValue where
  | text (s : String)
  | number (n : Int)
  | boolean (b : Bool)
deriving DecidableEq, Repr

/-- Modelled from the spec: `crate::errors::Error` is not under `src/`; the
constructors are the ones named by the source code and the spec's error
taxonomy (section 7).  `AuthAbort` additionally models the transaction trap
performed by a failing `require_auth`. -/
inductive Error where
  | AdminNotSet
  | TokenAlreadyIssued
  | InvalidExpiryDate
  | TokenNotFound
  | TokenExpired
  | MetadataNotFound
  | MetadataValidationFailed
  | Unauthorized
  | AuthAbort
deriving DecidableEq, Repr

/-- `MembershipToken` record, field for field from the source. -/
structure MembershipToken where
  id : TokenId
  user : Address
  status : MembershipStatus
  issue_date : Nat
  expiry_date : Nat
deriving DecidableEq, Repr

/-- Attribute maps (`soroban_sdk::Map<String, MetadataValue>`), modelled as
association lists; Soroban maps have unique keys, which the operations below
maintain. -/
abbrev AttrMap := List (String × MetadataValue)

/-- `Map::get`: value of the first binding of key `k`. -/
def aget (m : AttrMap) (k : String) : Option MetadataValue :=
  match m with
  | [] => none
  | (k', v) :: rest => if k' = k then some v else aget rest k

/-- `Map::set`: insert-or-overwrite the binding of `k`. -/
def aset (m : AttrMap) (k : String) (v : MetadataValue) : AttrMap :=
  (k, v) :: m.filter (fun p => p.1 ≠ k)

/-- `Map::remove`: drop the binding of `k`. -/
def aremove (m : AttrMap) (k : String) : AttrMap :=
  m.filter (fun p => p.1 ≠ k)

/-- `Map::keys`. -/
def akeys (m : AttrMap) : List String :=
  m.map (fun p => p.1)

/-- Modelled from the spec: `common_types::TokenMetadata` is not under
`src/`; fields are those used by the source code and listed in the spec
(section 3). -/
structure TokenMetadata where
  description : String
  attributes : AttrMap
  version : Nat
  last_updated : Nat
  updated_by : Address
deriving DecidableEq, Repr

/-- Modelled from the spec: `common_types::MetadataUpdate` (history entry) is
not under `src/`; fields are those the source constructs. -/
structure MetadataUpdate where
  version : Nat
  timestamp : Nat
  updated_by : Address
  description : String
  changes : AttrMap
deriving DecidableEq, Repr

/-- The metadata attribute index: `DataKey::MetadataIndex(key, value)` ↦
optional bucket of token ids (`none` = no storage entry for that pair). -/
abbrev Index := String → MetadataValue → Option (List TokenId)

/-- Point update of one index bucket. -/
def idxUpdate (idx : Index) (k : String) (v : MetadataValue)
    (b : Option (List TokenId)) : Index :=
  fun k' v' => if k' = k ∧ v' = v then b else idx k' v'

/-- `add_to_metadata_index`: fetch-or-create the bucket for `(k, v)` and
append `tid` only if not already present. -/
def add_to_metadata_index (idx : Index) (k : String) (v : MetadataValue)
    (tid : TokenId) : Index :=
  let token_ids := (idx k v).getD []
  if tid ∈ token_ids then idx
  else idxUpdate idx k v (some (token_ids ++ [tid]))

/-- `remove_from_metadata_index`: if the bucket exists, filter out `tid`;
delete the bucket entirely when the filtered bucket is empty. -/
def remove_from_metadata_index (idx : Index) (k : String) (v : MetadataValue)
    (tid : TokenId) : Index :=
  match idx k v with
  | none => idx
  | some token_ids =>
    let new_ids := token_ids.filter (fun i => i ≠ tid)
    if new_ids.isEmpty then idxUpdate idx k v none
    else idxUpdate idx k v (some new_ids)

/-- Persistent + instance storage of the contract. -/
structure St where
  admin : Option Address
  tokens : TokenId → Option MembershipToken
  metadata : TokenId → Option TokenMetadata
  history : TokenId → List MetadataUpdate
  index : Index

/-- The deployment state: nothing stored. -/
def initSt : St :=
  { admin := none
    tokens := fun _ => none
    metadata := fun _ => none
    history := fun _ => []
    index := fun _ _ => none }

/-- Point update of the token store. -/
def tset (f : TokenId → Option MembershipToken) (id : TokenId)
    (t : MembershipToken) : TokenId → Option MembershipToken :=
  fun id' => if id' = id then some t else f id'

/-- Point update of the metadata store. -/
def mset (f : TokenId → Option TokenMetadata) (id : TokenId)
    (m : TokenMetadata) : TokenId → Option TokenMetadata :=
  fun id' => if id' = id then some m else f id'

/-- Point update of the history store. -/
def hset (f : TokenId → List MetadataUpdate) (id : TokenId)
    (h : List MetadataUpdate) : TokenId → List MetadataUpdate :=
  fun id' => if id' = id then h else f id'

/-- Outcome of one contract invocation: result, post state, and the list of
principals from which `require_auth` was requested (in order). -/
structure Res where
  out : Except Error Unit
  st : St
  auths : List Address

/-- Pure validators standing in for the external `common_types` rule engine.
Modelled from the spec: `validate_attribute` and `validate_metadata` are not
under `src/`; the spec (section 6) specifies them only as pure, side-effect
free accept/reject predicates, so they are carried as parameters. -/
structure Validators where
  validate_attribute : String → MetadataValue → Bool
  validate_metadata : TokenMetadata → Bool

/-- `issue_token`: admin-gated issuance of a fresh Active token. -/
def issue_token (auth : Address → Bool) (now : Nat) (s : St)
    (id : TokenId) (user : Address) (expiry_date : Nat) : Res :=
  match s.admin with
  | none => ⟨.error .AdminNotSet, s, []⟩
  | some admin =>
    if auth admin then
      if (s.tokens id).isSome then ⟨.error .TokenAlreadyIssued, s, [admin]⟩
      else if expiry_date ≤ now then ⟨.error .InvalidExpiryDate, s, [admin]⟩
      else
        let token : MembershipToken :=
          { id := id, user := user, status := .Active
            issue_date := now, expiry_date := expiry_date }
        ⟨.ok (), { s with tokens := tset s.tokens id token }, [admin]⟩
    else ⟨.error .AuthAbort, s, [admin]⟩

/-- `transfer_token`: owner-authorized transfer of an Active token. -/
def transfer_token (auth : Address → Bool) (s : St)
    (id : TokenId) (new_user : Address) : Res :=
  match s.tokens id with
  | none => ⟨.error .TokenNotFound, s, []⟩
  | some token =>
    if token.status ≠ MembershipStatus.Active then
      ⟨.error .TokenExpired, s, []⟩
    else if auth token.user then
      ⟨.ok (), { s with tokens := tset s.tokens id { token with user := new_user } },
        [token.user]⟩
    else ⟨.error .AuthAbort, s, [token.user]⟩

/-- `get_token`: read-only lookup with read-time expiry projection. -/
def get_token (now : Nat) (s : St) (id : TokenId) :
    Except Error MembershipToken × St :=
  match s.tokens id with
  | none => (.error .TokenNotFound, s)
  | some token =>
    if token.status = MembershipStatus.Active ∧ token.expiry_date < now then
      (.error .TokenExpired, s)
    else (.ok token, s)

/-- `set_admin`: self-attested overwrite of the admin slot. -/
def set_admin (auth : Address → Bool) (s : St) (admin : Address) : Res :=
  if auth admin then ⟨.ok (), { s with admin := some admin }, [admin]⟩
  else ⟨.error .AuthAbort, s, [admin]⟩

/-- The index-removal loop of `set_token_metadata`: for each key of the old
attribute map, remove the `(key, value)` entry of `tid` from the index. -/
def removeAttrsIdx (attrs : AttrMap) (tid : TokenId) :
    List String → Index → Index
  | [], idx => idx
  | k :: rest, idx =>
    match aget attrs k with
    | some v => removeAttrsIdx attrs tid rest (remove_from_metadata_index idx k v tid)
    | none => removeAttrsIdx attrs tid rest idx

/-- The index-addition loop of `set_token_metadata`: for each key of the new
attribute map, add the `(key, value)` entry of `tid` to the index. -/
def addAttrsIdx (attrs : AttrMap) (tid : TokenId) :
    List String → Index → Index
  | [], idx => idx
  | k :: rest, idx =>
    match aget attrs k with
    | some v => addAttrsIdx attrs tid rest (add_to_metadata_index idx k v tid)
    | none => addAttrsIdx attrs tid rest idx

/-- `set_token_metadata`: create-or-replace metadata (full replace
semantics), reindex, bump version, append one history entry. -/
def set_token_metadata (V : Validators) (auth : Address → Bool)
    (now seq : Nat) (s : St) (token_id : TokenId) (description : String)
    (attributes : AttrMap) : Res :=
  match s.tokens token_id with
  | none => ⟨.error .TokenNotFound, s, []⟩
  | some token =>
    match s.admin with
    | none => ⟨.error .AdminNotSet, s, []⟩
    | some admin =>
      -- the authorization block guarded by `env.ledger().sequence() > 0`
      let authStep : Except Error Unit × List Address :=
        if 0 < seq then
          if ¬ admin = token.user ∧ ¬ token.user = token.user then
            (if auth admin then .ok () else .error .AuthAbort, [admin])
          else
            (if auth token.user then .ok () else .error .AuthAbort, [token.user])
        else (.ok (), [])
      match authStep with
      | (.error e, log) => ⟨.error e, s, log⟩
      | (.ok _, log) =>
        let caller := token.user
        let version : Nat :=
          match s.metadata token_id with
          | some existing_metadata => existing_metadata.version + 1
          | none => 1
        let metadata : TokenMetadata :=
          { description := description, attributes := attributes
            version := version, last_updated := now, updated_by := caller }
        if V.validate_metadata metadata then
          let idx1 : Index :=
            match s.metadata token_id with
            | some existing_metadata =>
              removeAttrsIdx existing_metadata.attributes token_id
                (akeys existing_metadata.attributes) s.index
            | none => s.index
          let idx2 := addAttrsIdx attributes token_id (akeys attributes) idx1
          let metadata_update : MetadataUpdate :=
            { version := version, timestamp := now, updated_by := caller
              description := description, changes := attributes }
          ⟨.ok (),
            { s with
              metadata := mset s.metadata token_id metadata
              index := idx2
              history := hset s.history token_id
                (s.history token_id ++ [metadata_update]) }, log⟩
        else ⟨.error .MetadataValidationFailed, s, log⟩

/-- `get_token_metadata`: read-only metadata lookup. -/
def get_token_metadata (s : St) (token_id : TokenId) :
    Except Error TokenMetadata × St :=
  match s.tokens token_id with
  | none => (.error .TokenNotFound, s)
  | some _ =>
    match s.metadata token_id with
    | none => (.error .MetadataNotFound, s)
    | some metadata => (.ok metadata, s)

/-- The per-key loop of `update_token_metadata`: validate the attribute,
remove the stale index entry, add the new one (both persistent writes), and
update the in-memory attribute map.  On a validation failure the loop stops
with the index writes made so far. -/
def update_loop (V : Validators) (updates : AttrMap) (tid : TokenId) :
    List String → Index → TokenMetadata → Except Error TokenMetadata × Index
  | [], idx, metadata => (.ok metadata, idx)
  | k :: rest, idx, metadata =>
    match aget updates k with
    | none => update_loop V updates tid rest idx metadata
    | some new_value =>
      if V.validate_attribute k new_value then
        let idx1 : Index :=
          match aget metadata.attributes k with
          | some old_value => remove_from_metadata_index idx k old_value tid
          | none => idx
        let idx2 := add_to_metadata_index idx1 k new_value tid
        update_loop V updates tid rest idx2
          { metadata with attributes := aset metadata.attributes k new_value }
      else (.error .MetadataValidationFailed, idx)

/-- `update_token_metadata`: partial merge of attributes with incremental
reindexing, version bump, and one history entry holding the delta. -/
def update_token_metadata (V : Validators) (auth : Address → Bool)
    (now : Nat) (s : St) (token_id : TokenId) (updates : AttrMap) : Res :=
  match s.tokens token_id with
  | none => ⟨.error .TokenNotFound, s, []⟩
  | some token =>
    match s.metadata token_id with
    | none => ⟨.error .MetadataNotFound, s, []⟩
    | some metadata0 =>
      if auth token.user then
        match update_loop V updates token_id (akeys updates) s.index metadata0 with
        | (.error e, idx) => ⟨.error e, { s with index := idx }, [token.user]⟩
        | (.ok metadata1, idx) =>
          if V.validate_metadata metadata1 then
            let metadata2 : TokenMetadata :=
              { metadata1 with
                version := metadata1.version + 1
                last_updated := now
                updated_by := token.user }
            let metadata_update : MetadataUpdate :=
              { version := metadata2.version, timestamp := metadata2.last_updated
                updated_by := metadata2.updated_by
                description := metadata2.description, changes := updates }
            ⟨.ok (),
              { s with
                metadata := mset s.metadata token_id metadata2
                index := idx
                history := hset s.history token_id
                  (s.history token_id ++ [metadata_update]) }, [token.user]⟩
          else ⟨.error .MetadataValidationFailed, { s with index := idx }, [token.user]⟩
      else ⟨.error .AuthAbort, s, [token.user]⟩

/-- `get_metadata_history`: the stored history, or empty if none. -/
def get_metadata_history (s : St) (token_id : TokenId) : List MetadataUpdate :=
  s.history token_id

/-- The per-key loop of `remove_metadata_attributes`: drop the index entry of
each present key and delete the key from the in-memory attribute map. -/
def remove_loop (tid : TokenId) :
    List String → Index → AttrMap → Index × AttrMap
  | [], idx, attrs => (idx, attrs)
  | k :: rest, idx, attrs =>
    let idx1 : Index :=
      match aget attrs k with
      | some v => remove_from_metadata_index idx k v tid
      | none => idx
    remove_loop tid rest idx1 (aremove attrs k)

/-- `remove_metadata_attributes`: owner-authorized attribute deletion with
index maintenance and version bump; appends no history entry. -/
def remove_metadata_attributes (auth : Address → Bool) (now : Nat) (s : St)
    (token_id : TokenId) (attribute_keys : List String) : Res :=
  match s.tokens token_id with
  | none => ⟨.error .TokenNotFound, s, []⟩
  | some token =>
    match s.metadata token_id with
    | none => ⟨.error .MetadataNotFound, s, []⟩
    | some metadata0 =>
      if auth token.user then
        let step := remove_loop token_id attribute_keys s.index metadata0.attributes
        let metadata2 : TokenMetadata :=
          { metadata0 with
            attributes := step.2
            version := metadata0.version + 1
            last_updated := now
            updated_by := token.user }
        ⟨.ok (),
          { s with
            metadata := mset s.metadata token_id metadata2
            index := step.1 }, [token.user]⟩
      else ⟨.error .AuthAbort, s, [token.user]⟩

/-- `query_tokens_by_attribute`: bucket contents verbatim, or empty. -/
def query_tokens_by_attribute (s : St) (attribute_key : String)
    (attribute_value : MetadataValue) : List TokenId :=
  (s.index attribute_key attribute_value).getD []

/-! ## Invocation sequences -/

/-- Per-call environment: validators, authorized principals, ledger
timestamp and sequence number. -/
structure Ctx where
  V : Validators
  auth : Address → Bool
  now : Nat
  seq : Nat

/-- One contract invocation (the state-mutating entry points). -/
inductive Call where
  | issue (id : TokenId) (user : Address) (expiry_date : Nat)
  | transfer (id : TokenId) (new_user : Address)
  | setAdmin (admin : Address)
  | setMeta (token_id : TokenId) (description : String) (attributes : AttrMap)
  | updateMeta (token_id : TokenId) (updates : AttrMap)
  | removeAttrs (token_id : TokenId) (attribute_keys : List String)

/-- Dispatch one invocation. -/
def step (c : Ctx) (call : Call) (s : St) : Res :=
  match call with
  | .issue id user expiry_date => issue_token c.auth c.now s id user expiry_date
  | .transfer id new_user => transfer_token c.auth s id new_user
  | .setAdmin admin => set_admin c.auth s admin
  | .setMeta token_id description attributes =>
    set_token_metadata c.V c.auth c.now c.seq s token_id description attributes
  | .updateMeta token_id updates =>
    update_token_metadata c.V c.auth c.now s token_id updates
  | .removeAttrs token_id attribute_keys =>
    remove_metadata_attributes c.auth c.now s token_id attribute_keys

/-- Run a sequence of invocations, keeping the post state of each call
whether it succeeds or fails. -/
def run (trace : List (Ctx × Call)) (s : St) : St :=
  match trace with
  | [] => s
  | (c, call) :: rest => run rest (step c call s).st

/-- Is this call an `update_token_metadata` invocation? -/
def isUpdateMeta (call : Call) : Bool :=
  match call with
  | .updateMeta _ _ => true
  | _ => false

/-- Did the invocation succeed? -/
def isOk (e : Except Error Unit) : Bool :=
  match e with
  | .ok _ => true
  | .error _ => false

/-- `true` iff no `update_token_metadata` call in the trace (executed from
`s`) returns an error. -/
def noFailedUpdate (s : St) (trace : List (Ctx × Call)) : Bool :=
  match trace with
  | [] => true
  | (c, call) :: rest =>
    (!(isUpdateMeta call) || isOk (step c call s).out) &&
      noFailedUpdate (step c call s).st rest

/-! ## Derived observations -/

/-- Stored metadata version of a token, if metadata exists. -/
def versionOf (s : St) (tid : TokenId) : Option Nat :=
  (s.metadata tid).map (fun m => m.version)

/-- The attribute value a token currently holds for key `k`, through its
stored metadata. -/
def attrOf (s : St) (tid : TokenId) (k : String) : Option MetadataValue :=
  match s.metadata tid with
  | some m => aget m.attributes k
  | none => none

/-- The index-consistency property of the spec, exactly as claimed: every
attribute pair of a token is discoverable through the query, and a pair no
token holds has an empty (absent) bucket. -/
def IndexConsistent (s : St) : Prop :=
  (∀ tid m k v, s.metadata tid = some m → aget m.attributes k = some v →
      tid ∈ query_tokens_by_attribute s k v) ∧
  (∀ k v, (∀ tid, attrOf s tid k ≠ some v) →
      query_tokens_by_attribute s k v = [])

/-! ## Concrete data for witnesses -/

/-- A concrete Active token owned by address 7, expiring at time 10. -/
def tokA : MembershipToken :=
  { id := 1, user := 7, status := .Active, issue_date := 0, expiry_date := 10 }

/-- A concrete Revoked token owned by address 7. -/
def tokR : MembershipToken :=
  { id := 2, user := 7, status := .Revoked, issue_date := 0, expiry_date := 10 }

/-- A concrete state holding `tokA` under id 1 and `tokR` under id 2, with
admin 5. -/
def stWit : St :=
  { admin := some 5
    tokens := tset (tset (fun _ => none) 1 tokA) 2 tokR
    metadata := fun _ => none
    history := fun _ => []
    index := fun _ _ => none }

/-- Validators accepting everything. -/
def acceptAll : Validators :=
  { validate_attribute := fun _ _ => true, validate_metadata := fun _ => true }

/-- A concrete index with a two-element bucket and a singleton bucket. -/
def idxWit : Index := fun k v =>
  if k = "a" ∧ v = .number 1 then some [1, 2]
  else if k = "c" ∧ v = .number 2 then some [4]
  else none

/-- Concrete metadata: one attribute, version 1. -/
def mWit : TokenMetadata :=
  { description := "d", attributes := [("a", .number 1)], version := 1
    last_updated := 0, updated_by := 7 }

/-- A concrete state where token 1 carries metadata `mWit` and the index
holds the matching bucket. -/
def stMetaWit : St :=
  { admin := some 5
    tokens := tset (fun _ => none) 1 tokA
    metadata := mset (fun _ => none) 1 mWit
    history := fun _ => []
    index := idxUpdate (fun _ _ => none) "a" (.number 1) (some [1]) }

/-- The contents of one index bucket (empty when absent). -/
def bucketOf (idx : Index) (k : String) (v : MetadataValue) : List TokenId :=
  (idx k v).getD []

/-- The version `set_token_metadata` writes: previous version + 1, or 1. -/
def setMetaVersion (s : St) (tid : TokenId) : Nat :=
  match s.metadata tid with
  | some existing_metadata => existing_metadata.version + 1
  | none => 1

/-- The index produced by a successful `set_token_metadata`. -/
def setMetaIndex (s : St) (tid : TokenId) (attrs : AttrMap) : Index :=
  addAttrsIdx attrs tid (akeys attrs)
    (match s.metadata tid with
     | some existing_metadata =>
       removeAttrsIdx existing_metadata.attributes tid
         (akeys existing_metadata.attributes) s.index
     | none => s.index)

/-- The full post state of a successful `set_token_metadata`. -/
def setMetaSuccess (s : St) (tid : TokenId) (d : String) (attrs : AttrMap)
    (now : Nat) (caller : Address) : St :=
  { s with
    metadata := mset s.metadata tid
      { description := d, attributes := attrs, version := setMetaVersion s tid
        last_updated := now, updated_by := caller }
    index := setMetaIndex s tid attrs
    history := hset s.history tid (s.history tid ++
      [{ version := setMetaVersion s tid, timestamp := now, updated_by := caller
         description := d, changes := attrs }]) }

/-- The post state of a successful `update_token_metadata`, given the
result of its per-key loop. -/
def updateMetaSuccess (s : St) (tid : TokenId) (upds : AttrMap) (now : Nat)
    (caller : Address) (m1 : TokenMetadata) (idx : Index) : St :=
  { s with
    metadata := mset s.metadata tid
      { m1 with version := m1.version + 1, last_updated := now, updated_by := caller }
    index := idx
    history := hset s.history tid (s.history tid ++
      [{ version := m1.version + 1, timestamp := now, updated_by := caller
         description := m1.description, changes := upds }]) }

/-- The post state of a successful `remove_metadata_attributes`. -/
def removeAttrsSuccess (s : St) (tid : TokenId) (keys : List String)
    (now : Nat) (caller : Address) (m0 : TokenMetadata) : St :=
  { s with
    metadata := mset s.metadata tid
      { m0 with
        attributes := (remove_loop tid keys s.index m0.attributes).2
        version := m0.version + 1, last_updated := now, updated_by := caller }
    index := (remove_loop tid keys s.index m0.attributes).1 }

/-- The index `idx` is consistent with state `s` in which token `tid`'s
attribute map is (temporarily) `attrs`, and no stored bucket is empty. -/
def GoodIdx (s : St) (tid : TokenId) (attrs : AttrMap) (idx : Index) : Prop :=
  (∀ k v t, t ∈ bucketOf idx k v ↔
    (if t = tid then aget attrs k = some v else attrOf s t k = some v)) ∧
  (∀ k v ids, idx k v = some ids → ids ≠ [])

/-- The full index-consistency invariant of a state. -/
def InvFull (s : St) : Prop :=
  (∀ k v t, t ∈ bucketOf s.index k v ↔ attrOf s t k = some v) ∧
  (∀ k v ids, s.index k v = some ids → ids ≠ [])

/-- Validators that reject attribute key "b" and accept everything else. -/
def rejectB : Validators :=
  { validate_attribute := fun k _ => !(k == "b"), validate_metadata := fun _ => true }

/-- A call context: everything authorized, accepting validators, time 0,
ledger sequence 1. -/
def ctxOk : Ctx := ⟨acceptAll, fun _ => true, 0, 1⟩

/-- Same context but with the validator that rejects key "b". -/
def ctxRej : Ctx := ⟨rejectB, fun _ => true, 0, 1⟩

/-- Set the admin, issue token 1 to user 7, give it attribute a = 1. -/
def tracePre : List (Ctx × Call) :=
  [(ctxOk, .setAdmin 5), (ctxOk, .issue 1 7 100),
   (ctxOk, .setMeta 1 "d" [("a", .number 1)])]

/-- An update payload whose first key "a" passes validation (and is
reindexed) before its second key "b" fails validation. -/
def updsBad : AttrMap := [("a", .number 2), ("b", .number 3)]

/-- The state after `tracePre`. -/
def stPre : St := run tracePre initSt

/-- The full counterexample trace: `tracePre` followed by the failing
update. -/
def traceBad : List (Ctx × Call) :=
  tracePre ++ [(ctxRej, .updateMeta 1 updsBad)]

/-! ## Association-list and index-primitive lemmas -/

theorem aget_mem_akeys (m : AttrMap) (k : String) (v : MetadataValue)
    (h : aget m k = some v) : k ∈ akeys m := by
  induction m with
  | nil => cases h
  | cons p rest ih =>
    obtain ⟨k', v'⟩ := p
    unfold aget at h
    unfold akeys
    by_cases hk : k' = k
    · simp [hk]
    · rw [if_neg hk] at h
      simp only [List.map_cons, List.mem_cons]
      exact Or.inr (ih h)

theorem aget_filter_ne (m : AttrMap) (k k' : String) (h : k' ≠ k) :
    aget (m.filter (fun p => p.1 ≠ k)) k' = aget m k' := by
  induction m with
  | nil => rfl
  | cons p rest ih =>
    obtain ⟨k0, v0⟩ := p
    by_cases hk0 : k0 = k
    · rw [show ((k0, v0) :: rest).filter (fun p => p.1 ≠ k) =
          rest.filter (fun p => p.1 ≠ k) from by simp [hk0]]
      rw [ih]
      simp only [aget]
      rw [if_neg (show ¬(k0 = k') from fun hc => h (hc ▸ hk0))]
    · rw [show ((k0, v0) :: rest).filter (fun p => p.1 ≠ k) =
          (k0, v0) :: rest.filter (fun p => p.1 ≠ k) from by simp [hk0]]
      simp only [aget]
      by_cases hk0' : k0 = k'
      · rw [if_pos hk0', if_pos hk0']
      · rw [if_neg hk0', if_neg hk0', ih]

theorem aget_filter_self (m : AttrMap) (k : String) :
    aget (m.filter (fun p => p.1 ≠ k)) k = none := by
  induction m with
  | nil => rfl
  | cons p rest ih =>
    obtain ⟨k0, v0⟩ := p
    by_cases hk0 : k0 = k
    · rw [show ((k0, v0) :: rest).filter (fun p => p.1 ≠ k) =
          rest.filter (fun p => p.1 ≠ k) from by simp [hk0]]
      exact ih
    · rw [show ((k0, v0) :: rest).filter (fun p => p.1 ≠ k) =
          (k0, v0) :: rest.filter (fun p => p.1 ≠ k) from by simp [hk0]]
      simp only [aget]
      rw [if_neg hk0]
      exact ih

theorem aget_aset (m : AttrMap) (k k' : String) (v : MetadataValue) :
    aget (aset m k v) k' = if k' = k then some v else aget m k' := by
  unfold aset
  simp only [aget]
  by_cases hk : k' = k
  · rw [if_pos hk.symm, if_pos hk]
  · rw [if_neg (fun hc => hk hc.symm), if_neg hk]
    exact aget_filter_ne m k k' hk

theorem aget_aremove (m : AttrMap) (k k' : String) :
    aget (aremove m k) k' = if k' = k then none else aget m k' := by
  unfold aremove
  by_cases hk : k' = k
  · rw [if_pos hk, hk]
    exact aget_filter_self m k
  · rw [if_neg hk]
    exact aget_filter_ne m k k' hk

theorem mem_add_to_metadata_index (idx : Index) (k : String)
    (v : MetadataValue) (tid t : TokenId) (k' : String) (v' : MetadataValue) :
    t ∈ bucketOf (add_to_metadata_index idx k v tid) k' v' ↔
      (t ∈ bucketOf idx k' v' ∨ (t = tid ∧ k' = k ∧ v' = v)) := by
  unfold add_to_metadata_index bucketOf
  by_cases hmem : tid ∈ (idx k v).getD []
  · rw [if_pos hmem]
    constructor
    · exact fun ht => Or.inl ht
    · rintro (ht | ⟨rfl, rfl, rfl⟩)
      · exact ht
      · exact hmem
  · rw [if_neg hmem]
    unfold idxUpdate
    by_cases hkv : k' = k ∧ v' = v
    · obtain ⟨rfl, rfl⟩ := hkv
      rw [if_pos ⟨rfl, rfl⟩]
      simp
    · rw [if_neg hkv]
      constructor
      · exact fun ht => Or.inl ht
      · rintro (ht | ⟨rfl, hk, hv⟩)
        · exact ht
        · exact absurd ⟨hk, hv⟩ hkv

theorem mem_remove_from_metadata_index (idx : Index) (k : String)
    (v : MetadataValue) (tid t : TokenId) (k' : String) (v' : MetadataValue) :
    t ∈ bucketOf (remove_from_metadata_index idx k v tid) k' v' ↔
      (t ∈ bucketOf idx k' v' ∧ ¬(t = tid ∧ k' = k ∧ v' = v)) := by
  unfold remove_from_metadata_index bucketOf
  cases hb : idx k v with
  | none =>
    dsimp only
    constructor
    · intro ht
      refine ⟨ht, ?_⟩
      rintro ⟨rfl, rfl, rfl⟩
      rw [hb] at ht
      cases ht
    · exact fun ht => ht.1
  | some ids =>
    dsimp only
    by_cases hemp : (ids.filter (fun i => i ≠ tid)).isEmpty = true
    · rw [if_pos hemp]
      unfold idxUpdate
      by_cases hkv : k' = k ∧ v' = v
      · obtain ⟨rfl, rfl⟩ := hkv
        rw [if_pos ⟨rfl, rfl⟩]
        rw [List.isEmpty_iff] at hemp
        constructor
        · intro ht
          cases ht
        · rintro ⟨ht, hn⟩
          rw [hb] at ht
          have hmem2 : t ∈ ids.filter (fun i => i ≠ tid) := by
            rw [List.mem_filter]
            refine ⟨ht, ?_⟩
            simp only [decide_eq_true_eq]
            intro hc
            exact hn ⟨hc, rfl, rfl⟩
          rw [hemp] at hmem2
          cases hmem2
      · rw [if_neg hkv]
        constructor
        · exact fun ht => ⟨ht, fun hc => hkv ⟨hc.2.1, hc.2.2⟩⟩
        · exact fun ht => ht.1
    · rw [if_neg hemp]
      unfold idxUpdate
      by_cases hkv : k' = k ∧ v' = v
      · obtain ⟨rfl, rfl⟩ := hkv
        rw [if_pos ⟨rfl, rfl⟩, hb]
        constructor
        · intro ht
          have ht2 : t ∈ ids.filter (fun i => i ≠ tid) := ht
          rw [List.mem_filter] at ht2
          simp only [decide_eq_true_eq] at ht2
          exact ⟨ht2.1, fun hc => ht2.2 hc.1⟩
        · rintro ⟨ht, hn⟩
          show t ∈ ids.filter (fun i => i ≠ tid)
          rw [List.mem_filter]
          simp only [decide_eq_true_eq]
          exact ⟨ht, fun hc => hn ⟨hc, rfl, rfl⟩⟩
      · rw [if_neg hkv]
        constructor
        · exact fun ht => ⟨ht, fun hc => hkv ⟨hc.2.1, hc.2.2⟩⟩
        · exact fun ht => ht.1

/-- Buckets stay nonempty under `add_to_metadata_index`. -/
theorem add_to_metadata_index_nonempty (idx : Index) (k : String)
    (v : MetadataValue) (tid : TokenId)
    (h : ∀ k' v' ids, idx k' v' = some ids → ids ≠ []) :
    ∀ k' v' ids, add_to_metadata_index idx k v tid k' v' = some ids →
      ids ≠ [] := by
  intro k' v' ids hids
  unfold add_to_metadata_index at hids
  by_cases hmem : tid ∈ (idx k v).getD []
  · rw [if_pos hmem] at hids
    exact h k' v' ids hids
  · rw [if_neg hmem] at hids
    unfold idxUpdate at hids
    by_cases hkv : k' = k ∧ v' = v
    · rw [if_pos hkv] at hids
      cases hids
      simp
    · rw [if_neg hkv] at hids
      exact h k' v' ids hids

/-- Buckets stay nonempty under `remove_from_metadata_index`. -/
theorem remove_from_metadata_index_nonempty (idx : Index) (k : String)
    (v : MetadataValue) (tid : TokenId)
    (h : ∀ k' v' ids, idx k' v' = some ids → ids ≠ []) :
    ∀ k' v' ids, remove_from_metadata_index idx k v tid k' v' = some ids →
      ids ≠ [] := by
  intro k' v' ids hids
  unfold remove_from_metadata_index at hids
  cases hb : idx k v with
  | none =>
    rw [hb] at hids
    exact h k' v' ids hids
  | some ids0 =>
    rw [hb] at hids
    dsimp only at hids
    by_cases hemp : (ids0.filter (fun i => i ≠ tid)).isEmpty = true
    · rw [if_pos hemp] at hids
      unfold idxUpdate at hids
      by_cases hkv : k' = k ∧ v' = v
      · rw [if_pos hkv] at hids
        cases hids
      · rw [if_neg hkv] at hids
        exact h k' v' ids hids
    · rw [if_neg hemp] at hids
      unfold idxUpdate at hids
      by_cases hkv : k' = k ∧ v' = v
      · rw [if_pos hkv] at hids
        cases hids
        intro hcontra
        exact hemp (List.isEmpty_iff.mpr hcontra)
      · rw [if_neg hkv] at hids
        exact h k' v' ids hids

theorem mem_removeAttrsIdx (attrs : AttrMap) (tid : TokenId)
    (ks : List String) (idx : Index) (t : TokenId) (k' : String)
    (v' : MetadataValue) :
    t ∈ bucketOf (removeAttrsIdx attrs tid ks idx) k' v' ↔
      (t ∈ bucketOf idx k' v' ∧
        ¬(t = tid ∧ k' ∈ ks ∧ aget attrs k' = some v')) := by
  induction ks generalizing idx with
  | nil =>
    simp only [removeAttrsIdx, List.not_mem_nil]
    constructor
    · intro ht
      exact ⟨ht, fun hc => hc.2.1⟩
    · exact fun ht => ht.1
  | cons k rest ih =>
    simp only [removeAttrsIdx]
    cases hk : aget attrs k with
    | some v =>
      rw [ih, mem_remove_from_metadata_index]
      constructor
      · rintro ⟨⟨hmem, hn1⟩, hn2⟩
        refine ⟨hmem, ?_⟩
        rintro ⟨ht, hks, hv⟩
        rcases List.mem_cons.mp hks with hkk | hkr
        · subst hkk
          rw [hk] at hv
          exact hn1 ⟨ht, rfl, (Option.some.inj hv).symm⟩
        · exact hn2 ⟨ht, hkr, hv⟩
      · rintro ⟨hmem, hn⟩
        refine ⟨⟨hmem, ?_⟩, ?_⟩
        · rintro ⟨ht, hkk, hvv⟩
          subst hkk
          exact hn ⟨ht, List.mem_cons.mpr (Or.inl rfl), hvv ▸ hk⟩
        · rintro ⟨ht, hkr, hv⟩
          exact hn ⟨ht, List.mem_cons.mpr (Or.inr hkr), hv⟩
    | none =>
      rw [ih]
      constructor
      · rintro ⟨hmem, hn⟩
        refine ⟨hmem, ?_⟩
        rintro ⟨ht, hks, hv⟩
        rcases List.mem_cons.mp hks with hkk | hkr
        · subst hkk
          rw [hk] at hv
          cases hv
        · exact hn ⟨ht, hkr, hv⟩
      · rintro ⟨hmem, hn⟩
        refine ⟨hmem, ?_⟩
        rintro ⟨ht, hkr, hv⟩
        exact hn ⟨ht, List.mem_cons.mpr (Or.inr hkr), hv⟩

theorem mem_addAttrsIdx (attrs : AttrMap) (tid : TokenId)
    (ks : List String) (idx : Index) (t : TokenId) (k' : String)
    (v' : MetadataValue) :
    t ∈ bucketOf (addAttrsIdx attrs tid ks idx) k' v' ↔
      (t ∈ bucketOf idx k' v' ∨
        (t = tid ∧ k' ∈ ks ∧ aget attrs k' = some v')) := by
  induction ks generalizing idx with
  | nil =>
    simp only [addAttrsIdx, List.not_mem_nil]
    constructor
    · exact fun ht => Or.inl ht
    · rintro (ht | hc)
      · exact ht
      · exact absurd hc.2.1 (fun h => h)
  | cons k rest ih =>
    simp only [addAttrsIdx]
    cases hk : aget attrs k with
    | some v =>
      rw [ih, mem_add_to_metadata_index]
      constructor
      · rintro ((hmem | ⟨rfl, rfl, rfl⟩) | ⟨rfl, hkr, hv⟩)
        · exact Or.inl hmem
        · exact Or.inr ⟨rfl, List.mem_cons.mpr (Or.inl rfl), hk⟩
        · exact Or.inr ⟨rfl, List.mem_cons.mpr (Or.inr hkr), hv⟩
      · rintro (hmem | ⟨rfl, hks, hv⟩)
        · exact Or.inl (Or.inl hmem)
        · rcases List.mem_cons.mp hks with hkk | hkr
          · subst hkk
            rw [hk] at hv
            exact Or.inl (Or.inr ⟨rfl, rfl, (Option.some.inj hv).symm⟩)
          · exact Or.inr ⟨rfl, hkr, hv⟩
    | none =>
      rw [ih]
      constructor
      · rintro (hmem | ⟨rfl, hkr, hv⟩)
        · exact Or.inl hmem
        · exact Or.inr ⟨rfl, List.mem_cons.mpr (Or.inr hkr), hv⟩
      · rintro (hmem | ⟨rfl, hks, hv⟩)
        · exact Or.inl hmem
        · rcases List.mem_cons.mp hks with hkk | hkr
          · subst hkk
            rw [hk] at hv
            cases hv
          · exact Or.inr ⟨rfl, hkr, hv⟩

theorem removeAttrsIdx_nonempty (attrs : AttrMap) (tid : TokenId)
    (ks : List String) (idx : Index)
    (h : ∀ k' v' ids, idx k' v' = some ids → ids ≠ []) :
    ∀ k' v' ids, removeAttrsIdx attrs tid ks idx k' v' = some ids →
      ids ≠ [] := by
  induction ks generalizing idx with
  | nil => exact h
  | cons k rest ih =>
    simp only [removeAttrsIdx]
    cases hk : aget attrs k with
    | some v => exact ih _ (remove_from_metadata_index_nonempty idx k v tid h)
    | none => exact ih _ h

theorem addAttrsIdx_nonempty (attrs : AttrMap) (tid : TokenId)
    (ks : List String) (idx : Index)
    (h : ∀ k' v' ids, idx k' v' = some ids → ids ≠ []) :
    ∀ k' v' ids, addAttrsIdx attrs tid ks idx k' v' = some ids →
      ids ≠ [] := by
  induction ks generalizing idx with
  | nil => exact h
  | cons k rest ih =>
    simp only [addAttrsIdx]
    cases hk : aget attrs k with
    | some v => exact ih _ (add_to_metadata_index_nonempty idx k v tid h)
    | none => exact ih _ h

theorem attrOf_metadata_mset_eq (s2 s : St) (tid : TokenId)
    (m : TokenMetadata) (hmeta : s2.metadata = mset s.metadata tid m)
    (t : TokenId) (k : String) (v : MetadataValue) :
    (attrOf s2 t k = some v) ↔
      (if t = tid then aget m.attributes k = some v
       else attrOf s t k = some v) := by
  unfold attrOf
  rw [hmeta]
  unfold mset
  by_cases ht : t = tid
  · rw [if_pos ht, if_pos ht]
  · rw [if_neg ht, if_neg ht]

theorem GoodIdx_of_invFull (s : St) (tid : TokenId) (m0 : TokenMetadata)
    (hInv : InvFull s) (hm0 : s.metadata tid = some m0) :
    GoodIdx s tid m0.attributes s.index := by
  constructor
  · intro k v t
    rw [hInv.1 k v t]
    by_cases ht : t = tid
    · subst ht
      rw [if_pos rfl]
      unfold attrOf
      rw [hm0]
    · rw [if_neg ht]
  · exact hInv.2

/-- `GoodIdx` only depends on the attribute map through `aget`. -/
theorem GoodIdx_congr (s : St) (tid : TokenId) (attrs1 attrs2 : AttrMap)
    (idx : Index) (h : ∀ k, aget attrs1 k = aget attrs2 k)
    (hG : GoodIdx s tid attrs1 idx) : GoodIdx s tid attrs2 idx := by
  constructor
  · intro k v t
    rw [hG.1 k v t]
    by_cases ht : t = tid
    · rw [if_pos ht, if_pos ht, h k]
    · rw [if_neg ht, if_neg ht]
  · exact hG.2

/-- Removing key `k`'s index entry (when present) matches deleting `k` from
the attribute map. -/
theorem GoodIdx_remove_key (s : St) (tid : TokenId) (attrs : AttrMap)
    (idx : Index) (k : String) (hG : GoodIdx s tid attrs idx) :
    GoodIdx s tid (aremove attrs k)
      (match aget attrs k with
       | some ov => remove_from_metadata_index idx k ov tid
       | none => idx) := by
  cases hk : aget attrs k with
  | some ov =>
    constructor
    · intro k' v' t
      rw [mem_remove_from_metadata_index, hG.1 k' v' t]
      by_cases ht : t = tid
      · subst ht
        rw [if_pos rfl, if_pos rfl, aget_aremove]
        by_cases hk' : k' = k
        · subst hk'
          rw [if_pos rfl, hk]
          constructor
          · rintro ⟨hv, hn⟩
            exact absurd ⟨rfl, rfl, (Option.some.inj hv).symm⟩ hn
          · intro hc
            cases hc
        · rw [if_neg hk']
          constructor
          · exact fun hp => hp.1
          · exact fun hp => ⟨hp, fun hc => hk' hc.2.1⟩
      · rw [if_neg ht, if_neg ht]
        constructor
        · exact fun hp => hp.1
        · exact fun hp => ⟨hp, fun hc => ht hc.1⟩
    · exact remove_from_metadata_index_nonempty idx k ov tid hG.2
  | none =>
    constructor
    · intro k' v' t
      rw [hG.1 k' v' t]
      by_cases ht : t = tid
      · subst ht
        rw [if_pos rfl, if_pos rfl, aget_aremove]
        by_cases hk' : k' = k
        · subst hk'
          rw [if_pos rfl, hk]
        · rw [if_neg hk']
      · rw [if_neg ht, if_neg ht]
    · exact hG.2

/-- Adding key `k`'s new index entry (the key being absent from the map)
matches inserting `k` into the attribute map. -/
theorem GoodIdx_add_key (s : St) (tid : TokenId) (attrs : AttrMap)
    (idx : Index) (k : String) (nv : MetadataValue)
    (hG : GoodIdx s tid attrs idx) (hnew : aget attrs k = none) :
    GoodIdx s tid (aset attrs k nv) (add_to_metadata_index idx k nv tid) := by
  constructor
  · intro k' v' t
    rw [mem_add_to_metadata_index, hG.1 k' v' t]
    by_cases ht : t = tid
    · subst ht
      rw [if_pos rfl, if_pos rfl, aget_aset]
      by_cases hk' : k' = k
      · subst hk'
        rw [if_pos rfl, hnew]
        constructor
        · rintro (hc | ⟨-, -, rfl⟩)
          · cases hc
          · rfl
        · intro hv
          exact Or.inr ⟨rfl, rfl, (Option.some.inj hv).symm⟩
      · rw [if_neg hk']
        constructor
        · rintro (hv | ⟨-, hc, -⟩)
          · exact hv
          · exact absurd hc hk'
        · exact fun hv => Or.inl hv
    · rw [if_neg ht, if_neg ht]
      constructor
      · rintro (hv | ⟨hc, -, -⟩)
        · exact hv
        · exact absurd hc ht
      · exact fun hv => Or.inl hv
  · exact add_to_metadata_index_nonempty idx k nv tid hG.2

/-- The per-key loop of `update_token_metadata` keeps the index consistent
with its in-memory attribute map whenever it succeeds. -/
theorem update_loop_GoodIdx (V : Validators) (upds : AttrMap)
    (tid : TokenId) (s : St) (ks : List String) :
    ∀ (idx : Index) (meta m1 : TokenMetadata) (idx' : Index),
      GoodIdx s tid meta.attributes idx →
      update_loop V upds tid ks idx meta = (.ok m1, idx') →
      GoodIdx s tid m1.attributes idx' := by
  induction ks with
  | nil =>
    intro idx meta m1 idx' hG h
    unfold update_loop at h
    obtain ⟨h1, h2⟩ := Prod.mk.injEq .. ▸ h
    cases h1
    cases h2
    exact hG
  | cons k rest ih =>
    intro idx meta m1 idx' hG h
    unfold update_loop at h
    cases hk : aget upds k with
    | none =>
      rw [hk] at h
      dsimp only at h
      exact ih _ _ _ _ hG h
    | some nv =>
      rw [hk] at h
      dsimp only at h
      by_cases hva : V.validate_attribute k nv = true
      · rw [if_pos hva] at h
        refine ih _ _ _ _ ?_ h
        have h1 := GoodIdx_remove_key s tid meta.attributes idx k hG
        have h2 := GoodIdx_add_key s tid (aremove meta.attributes k) _ k nv h1
          (by rw [aget_aremove, if_pos rfl])
        refine GoodIdx_congr s tid _ _ _ (fun k' => ?_) h2
        rw [aget_aset, aget_aset, aget_aremove]
        by_cases hk' : k' = k
        · rw [if_pos hk', if_pos hk']
        · rw [if_neg hk', if_neg hk', if_neg hk']
      · rw [if_neg hva] at h
        obtain ⟨h1, -⟩ := Prod.mk.injEq .. ▸ h
        cases h1

/-- The per-key loop of `remove_metadata_attributes` keeps the index
consistent with its in-memory attribute map. -/
theorem remove_loop_GoodIdx (tid : TokenId) (s : St) (ks : List String) :
    ∀ (idx : Index) (attrs : AttrMap), GoodIdx s tid attrs idx →
      GoodIdx s tid (remove_loop tid ks idx attrs).2
        (remove_loop tid ks idx attrs).1 := by
  induction ks with
  | nil => exact fun idx attrs hG => hG
  | cons k rest ih =>
    intro idx attrs hG
    simp only [remove_loop]
    exact ih _ _ (GoodIdx_remove_key s tid attrs idx k hG)

/-! ## Characterization lemmas: success and error shapes of each mutator -/

/-- A failing `set_token_metadata` leaves the state untouched. -/
theorem set_token_metadata_err (V : Validators) (auth : Address → Bool)
    (now seq : Nat) (s : St) (tid : TokenId) (d : String) (attrs : AttrMap)
    (h : isOk (set_token_metadata V auth now seq s tid d attrs).out = false) :
    (set_token_metadata V auth now seq s tid d attrs).st = s := by
  unfold set_token_metadata at h ⊢
  cases htok : s.tokens tid with
  | none => rfl
  | some tok =>
    rw [htok] at h
    cases hadm : s.admin with
    | none => rfl
    | some a =>
      rw [hadm] at h
      dsimp only at h ⊢
      by_cases hseq : 0 < seq
      · rw [if_pos hseq] at h ⊢
        rw [if_neg (by simp : ¬(¬a = tok.user ∧ ¬tok.user = tok.user))] at h ⊢
        by_cases hauth : auth tok.user = true
        · rw [if_pos hauth] at h ⊢
          dsimp only at h ⊢
          by_cases hval : V.validate_metadata
              { description := d, attributes := attrs
                version := match s.metadata tid with
                  | some existing_metadata => existing_metadata.version + 1
                  | none => 1
                last_updated := now, updated_by := tok.user } = true
          · rw [if_pos hval] at h
            simp [isOk] at h
          · rw [if_neg hval]
        · rw [if_neg hauth]
      · rw [if_neg hseq] at h ⊢
        dsimp only at h ⊢
        by_cases hval : V.validate_metadata
            { description := d, attributes := attrs
              version := match s.metadata tid with
                | some existing_metadata => existing_metadata.version + 1
                | none => 1
              last_updated := now, updated_by := tok.user } = true
        · rw [if_pos hval] at h
          simp [isOk] at h
        · rw [if_neg hval]

/-- A successful `set_token_metadata` found a token and the admin slot,
passed validation, and produced exactly the `setMetaSuccess` state. -/
theorem set_token_metadata_ok (V : Validators) (auth : Address → Bool)
    (now seq : Nat) (s : St) (tid : TokenId) (d : String) (attrs : AttrMap)
    (h : isOk (set_token_metadata V auth now seq s tid d attrs).out = true) :
    ∃ tok a, s.tokens tid = some tok ∧ s.admin = some a ∧
      V.validate_metadata
        { description := d, attributes := attrs, version := setMetaVersion s tid
          last_updated := now, updated_by := tok.user } = true ∧
      (set_token_metadata V auth now seq s tid d attrs).st =
        setMetaSuccess s tid d attrs now tok.user := by
  unfold set_token_metadata at h ⊢
  cases htok : s.tokens tid with
  | none => rw [htok] at h; simp [isOk] at h
  | some tok =>
    rw [htok] at h
    cases hadm : s.admin with
    | none => rw [hadm] at h; simp [isOk] at h
    | some a =>
      rw [hadm] at h
      refine ⟨tok, a, rfl, rfl, ?_⟩
      dsimp only at h ⊢
      by_cases hseq : 0 < seq
      · rw [if_pos hseq] at h ⊢
        rw [if_neg (by simp : ¬(¬a = tok.user ∧ ¬tok.user = tok.user))] at h ⊢
        by_cases hauth : auth tok.user = true
        · rw [if_pos hauth] at h ⊢
          dsimp only at h ⊢
          by_cases hval : V.validate_metadata
              { description := d, attributes := attrs
                version := match s.metadata tid with
                  | some existing_metadata => existing_metadata.version + 1
                  | none => 1
                last_updated := now, updated_by := tok.user } = true
          · refine ⟨hval, ?_⟩
            rw [if_pos hval, ← hadm]
            rfl
          · rw [if_neg hval] at h
            simp [isOk] at h
        · rw [if_neg hauth] at h
          simp [isOk] at h
      · rw [if_neg hseq] at h ⊢
        dsimp only at h ⊢
        by_cases hval : V.validate_metadata
            { description := d, attributes := attrs
              version := match s.metadata tid with
                | some existing_metadata => existing_metadata.version + 1
                | none => 1
              last_updated := now, updated_by := tok.user } = true
        · refine ⟨hval, ?_⟩
          rw [if_pos hval, ← hadm]
          rfl
        · rw [if_neg hval] at h
          simp [isOk] at h

/-- A failing `update_token_metadata` leaves the token, metadata, history
and admin stores untouched (only the index may have been written). -/
theorem update_token_metadata_err (V : Validators) (auth : Address → Bool)
    (now : Nat) (s : St) (tid : TokenId) (upds : AttrMap)
    (h : isOk (update_token_metadata V auth now s tid upds).out = false) :
    (update_token_metadata V auth now s tid upds).st.tokens = s.tokens ∧
    (update_token_metadata V auth now s tid upds).st.metadata = s.metadata ∧
    (update_token_metadata V auth now s tid upds).st.history = s.history ∧
    (update_token_metadata V auth now s tid upds).st.admin = s.admin := by
  unfold update_token_metadata at h ⊢
  cases htok : s.tokens tid with
  | none => exact ⟨rfl, rfl, rfl, rfl⟩
  | some tok =>
    rw [htok] at h
    cases hmeta : s.metadata tid with
    | none => exact ⟨rfl, rfl, rfl, rfl⟩
    | some m0 =>
      rw [hmeta] at h
      dsimp only at h ⊢
      by_cases hauth : auth tok.user = true
      · rw [if_pos hauth] at h ⊢
        cases hloop : update_loop V upds tid (akeys upds) s.index m0 with
        | mk out idx =>
          rw [hloop] at h
          cases out with
          | error e => exact ⟨rfl, rfl, rfl, rfl⟩
          | ok m1 =>
            dsimp only at h ⊢
            by_cases hval : V.validate_metadata m1 = true
            · rw [if_pos hval] at h
              simp [isOk] at h
            · rw [if_neg hval]
              exact ⟨rfl, rfl, rfl, rfl⟩
      · rw [if_neg hauth]
        exact ⟨rfl, rfl, rfl, rfl⟩

/-- A successful `update_token_metadata` found the token and metadata, its
loop succeeded, the result validated, and the post state is exactly
`updateMetaSuccess`. -/
theorem update_token_metadata_ok (V : Validators) (auth : Address → Bool)
    (now : Nat) (s : St) (tid : TokenId) (upds : AttrMap)
    (h : isOk (update_token_metadata V auth now s tid upds).out = true) :
    ∃ tok m0 m1 idx, s.tokens tid = some tok ∧ s.metadata tid = some m0 ∧
      update_loop V upds tid (akeys upds) s.index m0 = (.ok m1, idx) ∧
      V.validate_metadata m1 = true ∧
      (update_token_metadata V auth now s tid upds).st =
        updateMetaSuccess s tid upds now tok.user m1 idx := by
  unfold update_token_metadata at h ⊢
  cases htok : s.tokens tid with
  | none => rw [htok] at h; simp [isOk] at h
  | some tok =>
    rw [htok] at h
    cases hmeta : s.metadata tid with
    | none => rw [hmeta] at h; simp [isOk] at h
    | some m0 =>
      rw [hmeta] at h
      dsimp only at h ⊢
      by_cases hauth : auth tok.user = true
      · rw [if_pos hauth] at h ⊢
        cases hloop : update_loop V upds tid (akeys upds) s.index m0 with
        | mk out idx =>
          rw [hloop] at h
          cases out with
          | error e => simp [isOk] at h
          | ok m1 =>
            dsimp only at h ⊢
            by_cases hval : V.validate_metadata m1 = true
            · refine ⟨tok, m0, m1, idx, rfl, rfl, hloop, hval, ?_⟩
              rw [if_pos hval]
              rfl
            · rw [if_neg hval] at h
              simp [isOk] at h
      · rw [if_neg hauth] at h
        simp [isOk] at h

/-- A failing `remove_metadata_attributes` leaves the state untouched. -/
theorem remove_metadata_attributes_err (auth : Address → Bool) (now : Nat)
    (s : St) (tid : TokenId) (keys : List String)
    (h : isOk (remove_metadata_attributes auth now s tid keys).out = false) :
    (remove_metadata_attributes auth now s tid keys).st = s := by
  unfold remove_metadata_attributes at h ⊢
  cases htok : s.tokens tid with
  | none => rfl
  | some tok =>
    rw [htok] at h
    cases hmeta : s.metadata tid with
    | none => rfl
    | some m0 =>
      rw [hmeta] at h
      dsimp only at h ⊢
      by_cases hauth : auth tok.user = true
      · rw [if_pos hauth] at h
        simp [isOk] at h
      · rw [if_neg hauth]

/-- A successful `remove_metadata_attributes` found the token and metadata
and produced exactly the `removeAttrsSuccess` state. -/
theorem remove_metadata_attributes_ok (auth : Address → Bool) (now : Nat)
    (s : St) (tid : TokenId) (keys : List String)
    (h : isOk (remove_metadata_attributes auth now s tid keys).out = true) :
    ∃ tok m0, s.tokens tid = some tok ∧ s.metadata tid = some m0 ∧
      (remove_metadata_attributes auth now s tid keys).st =
        removeAttrsSuccess s tid keys now tok.user m0 := by
  unfold remove_metadata_attributes at h ⊢
  cases htok : s.tokens tid with
  | none => rw [htok] at h; simp [isOk] at h
  | some tok =>
    rw [htok] at h
    cases hmeta : s.metadata tid with
    | none => rw [hmeta] at h; simp [isOk] at h
    | some m0 =>
      rw [hmeta] at h
      dsimp only at h ⊢
      by_cases hauth : auth tok.user = true
      · refine ⟨tok, m0, rfl, rfl, ?_⟩
        rw [if_pos hauth]
        rfl
      · rw [if_neg hauth] at h
        simp [isOk] at h

/-- A failing `issue_token` leaves the state untouched. -/
theorem issue_token_err (auth : Address → Bool) (now : Nat) (s : St)
    (id : TokenId) (user : Address) (expiry_date : Nat)
    (h : isOk (issue_token auth now s id user expiry_date).out = false) :
    (issue_token auth now s id user expiry_date).st = s := by
  unfold issue_token at h ⊢
  cases hadm : s.admin with
  | none => rfl
  | some a =>
    rw [hadm] at h
    dsimp only at h ⊢
    by_cases hauth : auth a = true
    · rw [if_pos hauth] at h ⊢
      by_cases hhas : (s.tokens id).isSome = true
      · rw [if_pos hhas]
      · rw [if_neg hhas] at h ⊢
        by_cases hexp : expiry_date ≤ now
        · rw [if_pos hexp]
        · rw [if_neg hexp] at h
          simp [isOk] at h
    · rw [if_neg hauth]

/-- A successful `issue_token` stores exactly one fresh Active token. -/
theorem issue_token_ok (auth : Address → Bool) (now : Nat) (s : St)
    (id : TokenId) (user : Address) (expiry_date : Nat)
    (h : isOk (issue_token auth now s id user expiry_date).out = true) :
    ∃ a, s.admin = some a ∧ s.tokens id = none ∧ now < expiry_date ∧
      (issue_token auth now s id user expiry_date).st =
        { s with tokens := tset s.tokens id ⟨id, user, MembershipStatus.Active, now, expiry_date⟩ } := by
  unfold issue_token at h ⊢
  cases hadm : s.admin with
  | none => rw [hadm] at h; simp [isOk] at h
  | some a =>
    rw [hadm] at h
    dsimp only at h ⊢
    by_cases hauth : auth a = true
    · rw [if_pos hauth] at h ⊢
      by_cases hhas : (s.tokens id).isSome = true
      · rw [if_pos hhas] at h
        simp [isOk] at h
      · rw [if_neg hhas] at h ⊢
        by_cases hexp : expiry_date ≤ now
        · rw [if_pos hexp] at h
          simp [isOk] at h
        · rw [if_neg hexp]
          refine ⟨a, rfl, by simpa using hhas, by omega, rfl⟩
    · rw [if_neg hauth] at h
      simp [isOk] at h

/-- A failing `transfer_token` leaves the state untouched. -/
theorem transfer_token_err (auth : Address → Bool) (s : St) (id : TokenId)
    (new_user : Address)
    (h : isOk (transfer_token auth s id new_user).out = false) :
    (transfer_token auth s id new_user).st = s := by
  unfold transfer_token at h ⊢
  cases htok : s.tokens id with
  | none => rfl
  | some tok =>
    rw [htok] at h
    dsimp only at h ⊢
    by_cases hst : tok.status ≠ MembershipStatus.Active
    · rw [if_pos hst]
    · rw [if_neg hst] at h ⊢
      by_cases hauth : auth tok.user = true
      · rw [if_pos hauth] at h
        simp [isOk] at h
      · rw [if_neg hauth]

/-- A successful `transfer_token` rewrites only the owner of the token. -/
theorem transfer_token_ok (auth : Address → Bool) (s : St) (id : TokenId)
    (new_user : Address)
    (h : isOk (transfer_token auth s id new_user).out = true) :
    ∃ tok, s.tokens id = some tok ∧ tok.status = MembershipStatus.Active ∧
      (transfer_token auth s id new_user).st =
        { s with tokens := tset s.tokens id { tok with user := new_user } } := by
  unfold transfer_token at h ⊢
  cases htok : s.tokens id with
  | none => rw [htok] at h; simp [isOk] at h
  | some tok =>
    rw [htok] at h
    dsimp only at h ⊢
    by_cases hst : tok.status ≠ MembershipStatus.Active
    · rw [if_pos hst] at h
      simp [isOk] at h
    · rw [if_neg hst] at h ⊢
      by_cases hauth : auth tok.user = true
      · rw [if_pos hauth]
        exact ⟨tok, rfl, by simpa using hst, rfl⟩
      · rw [if_neg hauth] at h
        simp [isOk] at h

/-- `set_admin` never touches tokens, metadata, history or the index. -/
theorem set_admin_frame (auth : Address → Bool) (s : St) (a : Address) :
    (set_admin auth s a).st.tokens = s.tokens ∧
    (set_admin auth s a).st.metadata = s.metadata ∧
    (set_admin auth s a).st.history = s.history ∧
    (set_admin auth s a).st.index = s.index := by
  unfold set_admin
  split
  · exact ⟨rfl, rfl, rfl, rfl⟩
  · exact ⟨rfl, rfl, rfl, rfl⟩

/-! ## Index-consistency invariant preservation -/

theorem InvFull_frame (s s2 : St) (hm : s2.metadata = s.metadata)
    (hi : s2.index = s.index) (hInv : InvFull s) : InvFull s2 := by
  constructor
  · intro k v t
    rw [hi]
    unfold attrOf
    rw [hm]
    exact hInv.1 k v t
  · intro k v ids
    rw [hi]
    exact hInv.2 k v ids

theorem InvFull_initSt : InvFull initSt := by
  constructor
  · intro k v t
    constructor
    · intro ht
      cases ht
    · intro hattr
      cases hattr
  · intro k v ids h
    cases h

theorem InvFull_setMetaSuccess (s : St) (tid : TokenId) (d : String)
    (attrs : AttrMap) (now : Nat) (caller : Address) (hInv : InvFull s) :
    InvFull (setMetaSuccess s tid d attrs now caller) := by
  constructor
  · intro k v t
    rw [show (setMetaSuccess s tid d attrs now caller).index =
        setMetaIndex s tid attrs from rfl]
    rw [attrOf_metadata_mset_eq (setMetaSuccess s tid d attrs now caller)
        s tid _ rfl t k v]
    unfold setMetaIndex
    cases hmeta : s.metadata tid with
    | some m0 =>
      dsimp only
      rw [mem_addAttrsIdx, mem_removeAttrsIdx]
      by_cases ht : t = tid
      · subst ht
        rw [if_pos rfl]
        have hbase := hInv.1 k v t
        have hattr0 : attrOf s t k = aget m0.attributes k := by
          unfold attrOf
          rw [hmeta]
        constructor
        · rintro (⟨hmem, hn⟩ | ⟨-, -, hv⟩)
          · exfalso
            have hv0 : aget m0.attributes k = some v := by
              rw [← hattr0]
              exact hbase.mp hmem
            exact hn ⟨rfl, aget_mem_akeys _ _ _ hv0, hv0⟩
          · exact hv
        · intro hv
          exact Or.inr ⟨rfl, aget_mem_akeys _ _ _ hv, hv⟩
      · rw [if_neg ht]
        constructor
        · rintro (⟨hmem, -⟩ | ⟨hc, -, -⟩)
          · exact (hInv.1 k v t).mp hmem
          · exact absurd hc ht
        · intro hv
          exact Or.inl ⟨(hInv.1 k v t).mpr hv, fun hc => ht hc.1⟩
    | none =>
      dsimp only
      rw [mem_addAttrsIdx]
      by_cases ht : t = tid
      · subst ht
        rw [if_pos rfl]
        have hattr0 : attrOf s t k = none := by
          unfold attrOf
          rw [hmeta]
        constructor
        · rintro (hmem | ⟨-, -, hv⟩)
          · exfalso
            have := (hInv.1 k v t).mp hmem
            rw [hattr0] at this
            cases this
          · exact hv
        · intro hv
          exact Or.inr ⟨rfl, aget_mem_akeys _ _ _ hv, hv⟩
      · rw [if_neg ht]
        constructor
        · rintro (hmem | ⟨hc, -, -⟩)
          · exact (hInv.1 k v t).mp hmem
          · exact absurd hc ht
        · intro hv
          exact Or.inl ((hInv.1 k v t).mpr hv)
  · rw [show (setMetaSuccess s tid d attrs now caller).index =
        setMetaIndex s tid attrs from rfl]
    unfold setMetaIndex
    cases hmeta : s.metadata tid with
    | some m0 =>
      dsimp only
      exact addAttrsIdx_nonempty _ _ _ _
        (removeAttrsIdx_nonempty _ _ _ _ hInv.2)
    | none =>
      dsimp only
      exact addAttrsIdx_nonempty _ _ _ _ hInv.2

theorem InvFull_updateMetaSuccess (s : St) (tid : TokenId) (upds : AttrMap)
    (now : Nat) (caller : Address) (m1 : TokenMetadata) (idx : Index)
    (hG : GoodIdx s tid m1.attributes idx) :
    InvFull (updateMetaSuccess s tid upds now caller m1 idx) := by
  constructor
  · intro k v t
    rw [show (updateMetaSuccess s tid upds now caller m1 idx).index = idx
        from rfl]
    rw [attrOf_metadata_mset_eq (updateMetaSuccess s tid upds now caller m1 idx)
        s tid _ rfl t k v]
    exact hG.1 k v t
  · exact fun k v ids => hG.2 k v ids

theorem InvFull_removeAttrsSuccess (s : St) (tid : TokenId)
    (keys : List String) (now : Nat) (caller : Address) (m0 : TokenMetadata)
    (hInv : InvFull s) (hm0 : s.metadata tid = some m0) :
    InvFull (removeAttrsSuccess s tid keys now caller m0) := by
  have hG := remove_loop_GoodIdx tid s keys s.index m0.attributes
    (GoodIdx_of_invFull s tid m0 hInv hm0)
  constructor
  · intro k v t
    rw [show (removeAttrsSuccess s tid keys now caller m0).index =
        (remove_loop tid keys s.index m0.attributes).1 from rfl]
    rw [attrOf_metadata_mset_eq (removeAttrsSuccess s tid keys now caller m0)
        s tid _ rfl t k v]
    exact hG.1 k v t
  · exact fun k v ids => hG.2 k v ids

/-- One step preserves the invariant, provided a failing
`update_token_metadata` is excluded. -/
theorem InvFull_step (c : Ctx) (call : Call) (s : St) (hInv : InvFull s)
    (hupd : isUpdateMeta call = true → isOk (step c call s).out = true) :
    InvFull (step c call s).st := by
  cases call with
  | issue id user expiry_date =>
    cases hok : isOk (step c (.issue id user expiry_date) s).out with
    | false =>
      rw [show (step c (.issue id user expiry_date) s).st = s from
        issue_token_err c.auth c.now s id user expiry_date hok]
      exact hInv
    | true =>
      obtain ⟨a, -, -, -, hst⟩ :=
        issue_token_ok c.auth c.now s id user expiry_date hok
      rw [show step c (.issue id user expiry_date) s =
        issue_token c.auth c.now s id user expiry_date from rfl, hst]
      exact InvFull_frame s _ rfl rfl hInv
  | transfer id new_user =>
    cases hok : isOk (step c (.transfer id new_user) s).out with
    | false =>
      rw [show (step c (.transfer id new_user) s).st = s from
        transfer_token_err c.auth s id new_user hok]
      exact hInv
    | true =>
      obtain ⟨tok, -, -, hst⟩ := transfer_token_ok c.auth s id new_user hok
      rw [show step c (.transfer id new_user) s =
        transfer_token c.auth s id new_user from rfl, hst]
      exact InvFull_frame s _ rfl rfl hInv
  | setAdmin a =>
    have hfr := set_admin_frame c.auth s a
    exact InvFull_frame s _ hfr.2.1 hfr.2.2.2 hInv
  | setMeta tid d attrs =>
    cases hok : isOk (step c (.setMeta tid d attrs) s).out with
    | false =>
      rw [show (step c (.setMeta tid d attrs) s).st = s from
        set_token_metadata_err c.V c.auth c.now c.seq s tid d attrs hok]
      exact hInv
    | true =>
      obtain ⟨tok, a, -, -, -, hst⟩ :=
        set_token_metadata_ok c.V c.auth c.now c.seq s tid d attrs hok
      rw [show step c (.setMeta tid d attrs) s =
        set_token_metadata c.V c.auth c.now c.seq s tid d attrs from rfl, hst]
      exact InvFull_setMetaSuccess s tid d attrs c.now tok.user hInv
  | updateMeta tid upds =>
    have hok := hupd rfl
    obtain ⟨tok, m0, m1, idx, -, hm0, hloop, -, hst⟩ :=
      update_token_metadata_ok c.V c.auth c.now s tid upds hok
    rw [show step c (.updateMeta tid upds) s =
      update_token_metadata c.V c.auth c.now s tid upds from rfl, hst]
    have hG0 := GoodIdx_of_invFull s tid m0 hInv hm0
    have hG1 := update_loop_GoodIdx c.V upds tid s (akeys upds)
      s.index m0 m1 idx hG0 hloop
    exact InvFull_updateMetaSuccess s tid upds c.now tok.user m1 idx hG1
  | removeAttrs tid keys =>
    cases hok : isOk (step c (.removeAttrs tid keys) s).out with
    | false =>
      rw [show (step c (.removeAttrs tid keys) s).st = s from
        remove_metadata_attributes_err c.auth c.now s tid keys hok]
      exact hInv
    | true =>
      obtain ⟨tok, m0, -, hm0, hst⟩ :=
        remove_metadata_attributes_ok c.auth c.now s tid keys hok
      rw [show step c (.removeAttrs tid keys) s =
        remove_metadata_attributes c.auth c.now s tid keys from rfl, hst]
      exact InvFull_removeAttrsSuccess s tid keys c.now tok.user m0 hInv hm0

theorem InvFull_run (trace : List (Ctx × Call)) :
    ∀ s, InvFull s → noFailedUpdate s trace = true → InvFull (run trace s) := by
  induction trace with
  | nil => exact fun s h _ => h
  | cons p rest ih =>
    intro s h hnf
    obtain ⟨c, call⟩ := p
    unfold noFailedUpdate at hnf
    rw [Bool.and_eq_true] at hnf
    unfold run
    refine ih _ (InvFull_step c call s h ?_) hnf.2
    intro hu
    have h1 := hnf.1
    rw [hu] at h1
    simpa using h1

theorem indexConsistent_of_invFull (s : St) (h : InvFull s) :
    IndexConsistent s := by
  constructor
  · intro tid m k v hm hv
    have hattr : attrOf s tid k = some v := by
      unfold attrOf
      rw [hm]
      exact hv
    exact (h.1 k v tid).mpr hattr
  · intro k v hnone
    cases hb : s.index k v with
    | none =>
      unfold query_tokens_by_attribute
      rw [hb]
      rfl
    | some ids =>
      exfalso
      cases hids : ids with
      | nil => exact h.2 k v ids hb hids
      | cons t rest =>
        have hmem : t ∈ bucketOf s.index k v := by
          unfold bucketOf
          rw [hb, hids]
          exact List.mem_cons_self t rest
        exact hnone t ((h.1 k v t).mp hmem)

/-! ## Theorems for the claims -/

/-- C3: in `set_token_metadata` the owner check compares the token owner to
itself, so the admin-authorization branch is unreachable: whenever a token
and the admin are stored, the call requests authorization exactly from the
token owner when the ledger sequence is positive (and from nobody
otherwise), for every authorization environment and every admin. -/
theorem set_metadata_degenerate_self_authorization (V : Validators)
    (auth : Address → Bool) (now seq : Nat) (s : St) (tid : TokenId)
    (d : String) (attrs : AttrMap) (tok : MembershipToken) (a : Address)
    (htok : s.tokens tid = some tok) (hadm : s.admin = some a) :
    (set_token_metadata V auth now seq s tid d attrs).auths =
      if 0 < seq then [tok.user] else [] := by
  unfold set_token_metadata
  rw [htok, hadm]
  dsimp only
  by_cases hseq : 0 < seq
  · rw [if_pos hseq, if_pos hseq]
    rw [if_neg (by simp : ¬(¬a = tok.user ∧ ¬tok.user = tok.user))]
    by_cases hauth : auth tok.user = true
    · rw [if_pos hauth]
      dsimp only
      split
      all_goals rfl
    · rw [if_neg hauth]
  · rw [if_neg hseq, if_neg hseq]
    dsimp only
    split
    all_goals rfl

/-- Witness for C3: with admin 5 distinct from owner 7, authorization is
requested from the owner alone. -/
theorem set_metadata_degenerate_self_authorization_witness :
    (set_token_metadata acceptAll (fun _ => false) 0 1 stWit 1 "d" []).auths =
      if 0 < 1 then [tokA.user] else [] :=
  set_metadata_degenerate_self_authorization acceptAll (fun _ => false) 0 1
    stWit 1 "d" [] tokA 5 (by rfl) (by rfl)

/-- C8: a successful `remove_metadata_attributes` leaves every token's
metadata history exactly as it was, while successful `set_token_metadata`
and `update_token_metadata` calls each append exactly one entry to the
token's history. -/
theorem remove_attributes_history_asymmetry (V : Validators)
    (auth : Address → Bool) (now seq : Nat) (s : St) (tid : TokenId)
    (keys : List String) (d : String) (attrs upds : AttrMap) :
    (isOk (remove_metadata_attributes auth now s tid keys).out = true →
      ∀ tid', get_metadata_history (remove_metadata_attributes auth now s tid keys).st tid' =
        get_metadata_history s tid') ∧
    (isOk (set_token_metadata V auth now seq s tid d attrs).out = true →
      ∃ e, get_metadata_history (set_token_metadata V auth now seq s tid d attrs).st tid =
        get_metadata_history s tid ++ [e]) ∧
    (isOk (update_token_metadata V auth now s tid upds).out = true →
      ∃ e, get_metadata_history (update_token_metadata V auth now s tid upds).st tid =
        get_metadata_history s tid ++ [e]) := by
  refine ⟨?_, ?_, ?_⟩
  · intro h tid'
    obtain ⟨tok, m0, _, _, hst⟩ := remove_metadata_attributes_ok auth now s tid keys h
    rw [hst]
    rfl
  · intro h
    obtain ⟨tok, a, _, _, _, hst⟩ := set_token_metadata_ok V auth now seq s tid d attrs h
    refine ⟨{ version := setMetaVersion s tid, timestamp := now, updated_by := tok.user
              description := d, changes := attrs }, ?_⟩
    rw [hst]
    unfold setMetaSuccess get_metadata_history hset
    dsimp only
    rw [if_pos rfl]
  · intro h
    obtain ⟨tok, m0, m1, idx, _, _, _, _, hst⟩ :=
      update_token_metadata_ok V auth now s tid upds h
    refine ⟨{ version := m1.version + 1, timestamp := now, updated_by := tok.user
              description := m1.description, changes := upds }, ?_⟩
    rw [hst]
    unfold updateMetaSuccess get_metadata_history hset
    dsimp only
    rw [if_pos rfl]

/-- Witness for C8 at concrete successful calls. -/
theorem remove_attributes_history_asymmetry_witness :
    (∀ tid', get_metadata_history
        (remove_metadata_attributes (fun _ => true) 3 stMetaWit 1 ["a"]).st tid' =
      get_metadata_history stMetaWit tid') ∧
    (∃ e, get_metadata_history
        (set_token_metadata acceptAll (fun _ => true) 3 1 stMetaWit 1 "d2" []).st 1 =
      get_metadata_history stMetaWit 1 ++ [e]) ∧
    (∃ e, get_metadata_history
        (update_token_metadata acceptAll (fun _ => true) 3 stMetaWit 1
          [("a", .number 2)]).st 1 =
      get_metadata_history stMetaWit 1 ++ [e]) := by
  have h := remove_attributes_history_asymmetry acceptAll (fun _ => true) 3 1
    stMetaWit 1 ["a"] "d2" [] [("a", .number 2)]
  exact ⟨h.1 (by decide), h.2.1 (by decide), h.2.2 (by decide)⟩

/-- The per-key loop of `update_token_metadata` only rewrites the attribute
map: version, bookkeeping fields and description pass through unchanged. -/
theorem update_loop_ok_fields (V : Validators) (upds : AttrMap)
    (tid : TokenId) (ks : List String) (idx : Index)
    (meta m1 : TokenMetadata) (idx' : Index)
    (h : update_loop V upds tid ks idx meta = (.ok m1, idx')) :
    m1.version = meta.version ∧ m1.last_updated = meta.last_updated ∧
      m1.updated_by = meta.updated_by ∧ m1.description = meta.description := by
  induction ks generalizing idx meta with
  | nil =>
    unfold update_loop at h
    obtain ⟨h1, -⟩ := Prod.mk.injEq .. ▸ h
    cases h1
    exact ⟨rfl, rfl, rfl, rfl⟩
  | cons k rest ih =>
    unfold update_loop at h
    cases hget : aget upds k with
    | none =>
      rw [hget] at h
      dsimp only at h
      exact ih _ _ h
    | some nv =>
      rw [hget] at h
      dsimp only at h
      by_cases hva : V.validate_attribute k nv = true
      · rw [if_pos hva] at h
        have hrec := ih _ _ h
        exact hrec
      · rw [if_neg hva] at h
        obtain ⟨h1, -⟩ := Prod.mk.injEq .. ▸ h
        cases h1

/-- C4: version discipline across every invocation: the stored version of
any token never decreases under any call; a successful `set_token_metadata`
writes previous + 1 (or 1 when no metadata existed); and successful
`update_token_metadata` / `remove_metadata_attributes` calls increment the
stored version by exactly 1. -/
theorem version_discipline (c : Ctx) (call : Call) (s : St) :
    (∀ tid v, versionOf s tid = some v →
      ∃ v', versionOf (step c call s).st tid = some v' ∧ v ≤ v') ∧
    (∀ tid d attrs, call = .setMeta tid d attrs →
      isOk (step c call s).out = true →
      versionOf (step c call s).st tid =
        some (match versionOf s tid with | some v => v + 1 | none => 1)) ∧
    (∀ tid upds, call = .updateMeta tid upds →
      isOk (step c call s).out = true →
      ∃ v, versionOf s tid = some v ∧
        versionOf (step c call s).st tid = some (v + 1)) ∧
    (∀ tid keys, call = .removeAttrs tid keys →
      isOk (step c call s).out = true →
      ∃ v, versionOf s tid = some v ∧
        versionOf (step c call s).st tid = some (v + 1)) := by
  refine ⟨?_, ?_, ?_, ?_⟩
  · intro tid v hv
    cases call with
    | issue id user expiry_date =>
      cases hok : isOk (step c (.issue id user expiry_date) s).out with
      | false =>
        rw [show (step c (.issue id user expiry_date) s).st = s from
          issue_token_err c.auth c.now s id user expiry_date hok]
        exact ⟨v, hv, le_refl v⟩
      | true =>
        obtain ⟨a, -, -, -, hst⟩ := issue_token_ok c.auth c.now s id user expiry_date hok
        rw [show step c (.issue id user expiry_date) s =
          issue_token c.auth c.now s id user expiry_date from rfl, hst]
        exact ⟨v, hv, le_refl v⟩
    | transfer id new_user =>
      cases hok : isOk (step c (.transfer id new_user) s).out with
      | false =>
        rw [show (step c (.transfer id new_user) s).st = s from
          transfer_token_err c.auth s id new_user hok]
        exact ⟨v, hv, le_refl v⟩
      | true =>
        obtain ⟨tok, -, -, hst⟩ := transfer_token_ok c.auth s id new_user hok
        rw [show step c (.transfer id new_user) s =
          transfer_token c.auth s id new_user from rfl, hst]
        exact ⟨v, hv, le_refl v⟩
    | setAdmin a =>
      have hfr := (set_admin_frame c.auth s a).2.1
      unfold versionOf at hv ⊢
      rw [show step c (.setAdmin a) s = set_admin c.auth s a from rfl, hfr]
      exact ⟨v, hv, le_refl v⟩
    | setMeta tid2 d attrs =>
      cases hok : isOk (step c (.setMeta tid2 d attrs) s).out with
      | false =>
        rw [show (step c (.setMeta tid2 d attrs) s).st = s from
          set_token_metadata_err c.V c.auth c.now c.seq s tid2 d attrs hok]
        exact ⟨v, hv, le_refl v⟩
      | true =>
        obtain ⟨tok, a, -, -, -, hst⟩ :=
          set_token_metadata_ok c.V c.auth c.now c.seq s tid2 d attrs hok
        rw [show step c (.setMeta tid2 d attrs) s =
          set_token_metadata c.V c.auth c.now c.seq s tid2 d attrs from rfl, hst]
        unfold versionOf at hv ⊢
        unfold setMetaSuccess mset
        dsimp only
        by_cases htid : tid = tid2
        · rw [if_pos htid]
          refine ⟨setMetaVersion s tid2, rfl, ?_⟩
          unfold setMetaVersion
          subst htid
          cases hm : s.metadata tid with
          | none =>
            rw [hm] at hv
            simp at hv
          | some m =>
            rw [hm] at hv
            have : m.version = v := by simpa using hv
            show v ≤ m.version + 1
            omega
        · rw [if_neg htid]
          exact ⟨v, hv, le_refl v⟩
    | updateMeta tid2 upds =>
      cases hok : isOk (step c (.updateMeta tid2 upds) s).out with
      | false =>
        have hfr := (update_token_metadata_err c.V c.auth c.now s tid2 upds hok).2.1
        unfold versionOf at hv ⊢
        rw [show step c (.updateMeta tid2 upds) s =
          update_token_metadata c.V c.auth c.now s tid2 upds from rfl, hfr]
        exact ⟨v, hv, le_refl v⟩
      | true =>
        obtain ⟨tok, m0, m1, idx, -, hm0, hloop, -, hst⟩ :=
          update_token_metadata_ok c.V c.auth c.now s tid2 upds hok
        rw [show step c (.updateMeta tid2 upds) s =
          update_token_metadata c.V c.auth c.now s tid2 upds from rfl, hst]
        unfold versionOf at hv ⊢
        unfold updateMetaSuccess mset
        dsimp only
        by_cases htid : tid = tid2
        · rw [if_pos htid]
          subst htid
          rw [hm0] at hv
          have hfields := update_loop_ok_fields c.V upds tid (akeys upds)
            s.index m0 m1 idx hloop
          have : m0.version = v := by simpa using hv
          exact ⟨m1.version + 1, rfl, by omega⟩
        · rw [if_neg htid]
          exact ⟨v, hv, le_refl v⟩
    | removeAttrs tid2 keys =>
      cases hok : isOk (step c (.removeAttrs tid2 keys) s).out with
      | false =>
        rw [show (step c (.removeAttrs tid2 keys) s).st = s from
          remove_metadata_attributes_err c.auth c.now s tid2 keys hok]
        exact ⟨v, hv, le_refl v⟩
      | true =>
        obtain ⟨tok, m0, -, hm0, hst⟩ :=
          remove_metadata_attributes_ok c.auth c.now s tid2 keys hok
        rw [show step c (.removeAttrs tid2 keys) s =
          remove_metadata_attributes c.auth c.now s tid2 keys from rfl, hst]
        unfold versionOf at hv ⊢
        unfold removeAttrsSuccess mset
        dsimp only
        by_cases htid : tid = tid2
        · rw [if_pos htid]
          subst htid
          rw [hm0] at hv
          have : m0.version = v := by simpa using hv
          exact ⟨m0.version + 1, rfl, by omega⟩
        · rw [if_neg htid]
          exact ⟨v, hv, le_refl v⟩
  · intro tid d attrs hcall hok
    subst hcall
    obtain ⟨tok, a, -, -, -, hst⟩ :=
      set_token_metadata_ok c.V c.auth c.now c.seq s tid d attrs hok
    rw [show step c (.setMeta tid d attrs) s =
      set_token_metadata c.V c.auth c.now c.seq s tid d attrs from rfl, hst]
    unfold versionOf setMetaSuccess mset setMetaVersion
    dsimp only
    rw [if_pos rfl]
    cases hm : s.metadata tid with
    | none => rfl
    | some m => rfl
  · intro tid upds hcall hok
    subst hcall
    obtain ⟨tok, m0, m1, idx, -, hm0, hloop, -, hst⟩ :=
      update_token_metadata_ok c.V c.auth c.now s tid upds hok
    have hfields := update_loop_ok_fields c.V upds tid (akeys upds)
      s.index m0 m1 idx hloop
    refine ⟨m0.version, by unfold versionOf; rw [hm0]; rfl, ?_⟩
    rw [show step c (.updateMeta tid upds) s =
      update_token_metadata c.V c.auth c.now s tid upds from rfl, hst]
    unfold versionOf updateMetaSuccess mset
    dsimp only
    rw [if_pos rfl]
    rw [hfields.1]
    rfl
  · intro tid keys hcall hok
    subst hcall
    obtain ⟨tok, m0, -, hm0, hst⟩ :=
      remove_metadata_attributes_ok c.auth c.now s tid keys hok
    refine ⟨m0.version, by unfold versionOf; rw [hm0]; rfl, ?_⟩
    rw [show step c (.removeAttrs tid keys) s =
      remove_metadata_attributes c.auth c.now s tid keys from rfl, hst]
    unfold versionOf removeAttrsSuccess mset
    dsimp only
    rw [if_pos rfl]
    rfl

/-- Witness for C4: a successful first `set_token_metadata` on a token with
no metadata writes version 1, and monotonicity holds on a state with stored
version 1. -/
theorem version_discipline_witness :
    (∃ v', versionOf (step ⟨acceptAll, fun _ => true, 3, 1⟩
        (.updateMeta 1 [("a", .number 2)]) stMetaWit).st 1 = some v' ∧ 1 ≤ v') ∧
    versionOf (step ⟨acceptAll, fun _ => true, 0, 1⟩
        (.setMeta 1 "d" []) stWit).st 1 =
      some (match versionOf stWit 1 with | some v => v + 1 | none => 1) := by
  have h1 := version_discipline ⟨acceptAll, fun _ => true, 3, 1⟩
    (.updateMeta 1 [("a", .number 2)]) stMetaWit
  have h2 := version_discipline ⟨acceptAll, fun _ => true, 0, 1⟩
    (.setMeta 1 "d" []) stWit
  exact ⟨h1.1 1 1 (by decide), h2.2.1 1 "d" [] rfl (by decide)⟩

/-- C1 (amended): starting from deployment, after any sequence of calls in
which every `update_token_metadata` call succeeds (all other calls may
succeed or fail), the metadata index is consistent: every (key, value) pair
of a token's stored attributes is found by `query_tokens_by_attribute`, and
a pair held by no token has an absent (empty) bucket. -/
theorem index_consistency (trace : List (Ctx × Call))
    (h : noFailedUpdate initSt trace = true) :
    IndexConsistent (run trace initSt) :=
  indexConsistent_of_invFull _ (InvFull_run trace initSt InvFull_initSt h)

/-- Witness for C1 on a concrete three-call trace. -/
theorem index_consistency_witness : IndexConsistent (run tracePre initSt) :=
  index_consistency tracePre (by decide)

/-- C1 counterexample: after `traceBad`, whose final
`update_token_metadata` call returns an error, the bucket for ("a", 2)
contains token 1 although no token holds that attribute pair, so the
claimed invariant fails for sequences containing failed updates. -/
theorem index_consistency_counterexample :
    ¬ IndexConsistent (run traceBad initSt) := by
  intro h
  have hall : ∀ tid, attrOf (run traceBad initSt) tid "a" ≠
      some (.number 2) := by
    intro tid
    unfold attrOf
    have hm : (run traceBad initSt).metadata tid =
        (if tid = 1 then
          some ⟨"d", [("a", MetadataValue.number 1)], 1, 0, 7⟩ else none) :=
      rfl
    rw [hm]
    by_cases htid : tid = 1
    · rw [if_pos htid]
      decide
    · rw [if_neg htid]
      decide
  have h2 := h.2 "a" (.number 2) hall
  have hq : query_tokens_by_attribute (run traceBad initSt) "a"
      (.number 2) = [1] := by decide
  rw [hq] at h2
  cases h2

/-- C2 counterexample: `update_token_metadata` with `updsBad` returns
`MetadataValidationFailed`, yet the stored index is not what it was before
the call: the bucket for ("a", 2) was created by the failed call. -/
theorem fail_fast_atomicity_counterexample :
    isOk (step ctxRej (.updateMeta 1 updsBad) stPre).out = false ∧
    stPre.index "a" (.number 2) = none ∧
    (step ctxRej (.updateMeta 1 updsBad) stPre).st.index "a" (.number 2) =
      some [1] := by
  refine ⟨by decide, by decide, by decide⟩

/-- C2 (amended): `set_token_metadata` and `remove_metadata_attributes`
perform all validation before writing, so on error the state is exactly as
before; a failing `update_token_metadata` leaves the token, metadata,
history and admin stores unchanged, but may already have written index
entries for the attributes validated before the failure. -/
theorem metadata_mutators_error_frame (V : Validators)
    (auth : Address → Bool) (now seq : Nat) (s : St) (tid : TokenId)
    (d : String) (attrs upds : AttrMap) (keys : List String) :
    (isOk (set_token_metadata V auth now seq s tid d attrs).out = false →
      (set_token_metadata V auth now seq s tid d attrs).st = s) ∧
    (isOk (remove_metadata_attributes auth now s tid keys).out = false →
      (remove_metadata_attributes auth now s tid keys).st = s) ∧
    (isOk (update_token_metadata V auth now s tid upds).out = false →
      (update_token_metadata V auth now s tid upds).st.tokens = s.tokens ∧
      (update_token_metadata V auth now s tid upds).st.metadata = s.metadata ∧
      (update_token_metadata V auth now s tid upds).st.history = s.history ∧
      (update_token_metadata V auth now s tid upds).st.admin = s.admin) :=
  ⟨set_token_metadata_err V auth now seq s tid d attrs,
   remove_metadata_attributes_err auth now s tid keys,
   update_token_metadata_err V auth now s tid upds⟩

/-- Witness for the amended C2 at a state with no token: all three mutators
fail and leave the state unchanged. -/
theorem metadata_mutators_error_frame_witness :
    (set_token_metadata acceptAll (fun _ => true) 0 1 initSt 1 "d" []).st =
      initSt ∧
    (remove_metadata_attributes (fun _ => true) 0 initSt 1 ["a"]).st =
      initSt ∧
    (update_token_metadata acceptAll (fun _ => true) 0 initSt 1 []).st.tokens =
      initSt.tokens := by
  have h := metadata_mutators_error_frame acceptAll (fun _ => true) 0 1 initSt
    1 "d" [] [] ["a"]
  exact ⟨h.1 (by decide), h.2.1 (by decide), (h.2.2 (by decide)).1⟩

/-- C5: for every stored token with status Active and current time strictly
greater than its expiry date, `get_token` returns the `TokenExpired` error,
never the token, and leaves the whole stored state unchanged. -/
theorem get_token_expired_projection (now : Nat) (s : St) (id : TokenId)
    (tok : MembershipToken) (hstore : s.tokens id = some tok)
    (hactive : tok.status = MembershipStatus.Active)
    (hexp : tok.expiry_date < now) :
    get_token now s id = (.error .TokenExpired, s) := by
  unfold get_token
  rw [hstore]
  simp [hactive, hexp]

/-- Witness for C5 at a concrete state and time. -/
theorem get_token_expired_projection_witness :
    get_token 11 stWit 1 = (.error .TokenExpired, stWit) :=
  get_token_expired_projection 11 stWit 1 tokA (by rfl) (by rfl) (by decide)

/-- C6: a transfer authorized by the current owner of a token whose stored
status is Active succeeds even when the current time is strictly past the
token's expiry date: `transfer_token` never recomputes expiry. -/
theorem transfer_after_expiry_gap (auth : Address → Bool) (now : Nat)
    (s : St) (id : TokenId) (tok : MembershipToken) (new_user : Address)
    (hstore : s.tokens id = some tok)
    (hactive : tok.status = MembershipStatus.Active)
    (hauth : auth tok.user = true)
    (_hexp : tok.expiry_date < now) :
    (transfer_token auth s id new_user).out = .ok () ∧
      (transfer_token auth s id new_user).st.tokens id =
        some { tok with user := new_user } := by
  unfold transfer_token
  rw [hstore]
  simp [hactive, hauth, tset]

/-- Witness for C6: the owner transfers the stored Active token at time 11,
past its expiry 10, and the transfer succeeds. -/
theorem transfer_after_expiry_gap_witness :
    (transfer_token (fun _ => true) stWit 1 9).out = .ok () ∧
      (transfer_token (fun _ => true) stWit 1 9).st.tokens 1 =
        some { tokA with user := 9 } :=
  transfer_after_expiry_gap (fun _ => true) 11 stWit 1 tokA 9
    (by rfl) (by rfl) (by rfl) (by decide)

/-- C10: on a stored token whose status is not Active, `transfer_token`
fails with `TokenExpired` for every authorization environment and every new
user, requests no authorization at all, and leaves the state unchanged. -/
theorem transfer_inactive_precedence (auth : Address → Bool) (s : St)
    (id : TokenId) (tok : MembershipToken) (new_user : Address)
    (hstore : s.tokens id = some tok)
    (hne : tok.status ≠ MembershipStatus.Active) :
    transfer_token auth s id new_user = ⟨.error .TokenExpired, s, []⟩ := by
  unfold transfer_token
  rw [hstore]
  simp [hne]

/-- Witness for C10 on the stored Revoked token, with an authorization
environment granting nothing. -/
theorem transfer_inactive_precedence_witness :
    transfer_token (fun _ => false) stWit 2 9 = ⟨.error .TokenExpired, stWit, []⟩ :=
  transfer_inactive_precedence (fun _ => false) stWit 2 tokR 9 (by rfl) (by decide)

/-- C9: the index primitives have idempotent set semantics: adding an id
already in its bucket changes nothing; removing from an absent bucket or a
(nonempty) bucket not containing the id changes nothing; removing the last
id of a bucket deletes the bucket. -/
theorem index_primitives_idempotent (idx : Index) (k : String)
    (v : MetadataValue) (tid : TokenId) :
    (tid ∈ (idx k v).getD [] → add_to_metadata_index idx k v tid = idx) ∧
    (idx k v = none → remove_from_metadata_index idx k v tid = idx) ∧
    (∀ ids, idx k v = some ids → ids ≠ [] → tid ∉ ids →
        remove_from_metadata_index idx k v tid = idx) ∧
    (∀ ids, idx k v = some ids → ids.filter (fun i => i ≠ tid) = [] →
        remove_from_metadata_index idx k v tid k v = none) := by
  refine ⟨?_, ?_, ?_, ?_⟩
  · intro hmem
    unfold add_to_metadata_index
    simp [hmem]
  · intro habs
    unfold remove_from_metadata_index
    rw [habs]
  · intro ids hbucket hne hnotmem
    unfold remove_from_metadata_index
    rw [hbucket]
    have hfilter : ids.filter (fun i => i ≠ tid) = ids := by
      rw [List.filter_eq_self]
      intro a ha
      simp only [decide_eq_true_eq]
      intro h
      exact hnotmem (h ▸ ha)
    have hemp : ids.isEmpty = false := by
      simpa [List.isEmpty_iff] using hne
    simp only [hfilter, hemp, Bool.false_eq_true, if_false]
    funext k' v'
    unfold idxUpdate
    by_cases hkv : k' = k ∧ v' = v
    · rw [if_pos hkv, hkv.1, hkv.2, hbucket]
    · rw [if_neg hkv]
  · intro ids hbucket hfilter
    unfold remove_from_metadata_index
    rw [hbucket]
    simp only [hfilter]
    simp [idxUpdate]

/-- Witness for C9 at a concrete index with one two-element bucket. -/
theorem index_primitives_idempotent_witness :
    (1 ∈ ((idxWit "a" (.number 1)).getD []) ∧
      add_to_metadata_index idxWit "a" (.number 1) 1 = idxWit) ∧
    (idxWit "b" (.number 1) = none ∧
      remove_from_metadata_index idxWit "b" (.number 1) 1 = idxWit) ∧
    (remove_from_metadata_index idxWit "a" (.number 1) 3 = idxWit) ∧
    (remove_from_metadata_index idxWit "c" (.number 2) 4 "c" (.number 2) = none) := by
  have h := index_primitives_idempotent idxWit "a" (.number 1) 1
  have h2 := index_primitives_idempotent idxWit "b" (.number 1) 1
  have h3 := index_primitives_idempotent idxWit "a" (.number 1) 3
  have h4 := index_primitives_idempotent idxWit "c" (.number 2) 4
  refine ⟨⟨by decide, h.1 (by decide)⟩, ⟨by decide, h2.2.1 (by decide)⟩,
    h3.2.2.1 [1, 2] (by decide) (by decide) (by decide),
    h4.2.2.2 [4] (by decide) (by decide)⟩

/-- C7 counterexample: with the admin slot unset, an `issue_token` call with
`expiry_date ≤ now` fails with `AdminNotSet`, not `InvalidExpiryDate`. -/
theorem issue_invalid_expiry_counterexample :
    (issue_token (fun _ => true) 5 initSt 1 7 2).out = .error .AdminNotSet ∧
      (issue_token (fun _ => true) 5 initSt 1 7 2).out ≠
        .error .InvalidExpiryDate := by
  constructor
  · rfl
  · intro h
    simp [issue_token, initSt] at h

/-- C7 (amended): when the admin is set and authorizes the call and no token
is stored under the id, `issue_token` with `expiry_date ≤ now` fails with
`InvalidExpiryDate` and writes nothing. -/
theorem issue_invalid_expiry (auth : Address → Bool) (now : Nat) (s : St)
    (id : TokenId) (user : Address) (expiry_date : Nat) (a : Address)
    (hadm : s.admin = some a) (hauth : auth a = true)
    (hfresh : s.tokens id = none) (hexp : expiry_date ≤ now) :
    issue_token auth now s id user expiry_date = ⟨.error .InvalidExpiryDate, s, [a]⟩ := by
  unfold issue_token
  rw [hadm]
  simp [hauth, hfresh, hexp]

/-- Witness for the amended C7 at a concrete state. -/
theorem issue_invalid_expiry_witness :
    issue_token (fun _ => true) 5 stWit 3 7 2 = ⟨.error .InvalidExpiryDate, stWit, [5]⟩ :=
  issue_invalid_expiry (fun _ => true) 5 stWit 3 7 2 5
    (by rfl) (by rfl) (by rfl) (by decide)

end ManageHub
